import Mathlib

/-!
Verification development for the session-tracking core of
`src/bot.py` (GeoRegistroBot): the in-memory registry `active_shares`,
its JSON persistence (`save_state` / `load_state`), the event handlers
(`handle_location`, `handle_edited_location`), the eviction job
(`cleanup_inactive_shares`) and the retry-guarded ledger append
(`append_row_with_retry`).

Modelling conventions:
* A Python `datetime` is modelled by `PyDateTime`: `usecs` is the
  instant in microseconds since the epoch (for an aware datetime this
  is the UTC instant; for a naive one it is the wall-clock reading),
  and `tz` is the UTC offset in minutes (`none` = naive).
* ISO-8601 strings are modelled abstractly by `ISOStr`: every string
  either denotes a datetime (`ofDT d`, with `fromiso` inverting
  `isoformat`, which is exact in Python) or is rejected by
  `datetime.fromisoformat` (`invalid`).
* The `"chat_id:message_id"` key strings of the snapshot are modelled
  by `KeyStr`: `good a b` stands for `f"{a}:{b}"` (injective, since the
  decimal form of an integer contains no `:`), `bad` for any string
  whose split-and-int-parse fails with `ValueError`.
* A Python dict is modelled as an association list together with the
  no-duplicate-keys invariant; `insertA` replaces in place exactly as
  dict assignment does.
* `datetime.now()` values, Google-API outcomes and I/O outcomes are
  inputs of the embedded functions (the environment).
-/

namespace GeoBot

/-- A Python `datetime`: instant in microseconds plus an optional UTC
offset in minutes (`none` models a naive datetime). -/
structure PyDateTime where
  usecs : Int
  tz : Option Int
deriving DecidableEq

/-- An arbitrary string in a timestamp slot, classified by how
`datetime.fromisoformat` treats it: `ofDT d` is a string denoting the
datetime `d` (in particular `d.isoformat()`), `invalid` is a string
`fromisoformat` rejects with `ValueError`. -/
inductive ISOStr where
| ofDT (d : PyDateTime)
| invalid (tag : Nat)
deriving DecidableEq

/-- `datetime.fromisoformat`: succeeds exactly on the strings that
denote a datetime, returning it (`isoformat`/`fromisoformat` round-trip
exactly in Python). -/
def fromiso : ISOStr → Option PyDateTime
| ISOStr.ofDT d => some d
| ISOStr.invalid _ => none

/-- `dt.astimezone(pytz.utc)`: an aware datetime keeps its instant and
gets offset 0; a naive datetime is interpreted in the system local
zone (`localOff` microseconds east of UTC) first. -/
def astimezoneUTC (localOff : Int) (d : PyDateTime) : PyDateTime :=
  match d.tz with
  | some _ => { usecs := d.usecs, tz := some 0 }
  | none => { usecs := d.usecs - localOff, tz := some 0 }

/-- `pytz.utc.localize(dt)` on a naive datetime: the wall-clock reading
is declared to be UTC, the instant is unchanged. -/
def localizeUTC (d : PyDateTime) : PyDateTime :=
  { usecs := d.usecs, tz := some 0 }

/-- A value found in the `start_time` / `last_update` slot of a
session dict: the key may be absent, hold a `datetime` object, hold a
string, or hold a JSON value of any other type. -/
inductive TimeVal where
| absent
| dt (d : PyDateTime)
| str (s : ISOStr)
| other
deriving DecidableEq

/-- One value of the `active_shares` dict
(`{'user_id': ..., 'username': ..., 'start_time': ..., 'last_update': ...}`).
`user_id`/`username` are `none` when the key is absent from the dict. -/
structure Entry where
  user_id : Option Int
  username : Option String
  start_time : TimeVal
  last_update : TimeVal
deriving DecidableEq

/-- The `(chat_id, message_id)` composite key. -/
abbrev ShareKey := Int × Int

/-- The `active_shares` dict: an association list; all operations
below preserve distinctness of keys, as a Python dict does. -/
abbrev Store := List (ShareKey × Entry)

/-- Dict lookup. -/
def lookupA : Store → ShareKey → Option Entry
| [], _ => none
| (k', v) :: rest, k => if k' = k then some v else lookupA rest k

/-- `key in dict`. -/
def containsKey (st : Store) (k : ShareKey) : Bool :=
  (lookupA st k).isSome

/-- `dict[key] = value`: replaces in place if the key is present
(keeping its position, as CPython does), appends otherwise. -/
def insertA : Store → ShareKey → Entry → Store
| [], k, v => [(k, v)]
| (k', v') :: rest, k, v =>
    if k' = k then (k, v) :: rest else (k', v') :: insertA rest k v

/-- `del dict[key]` (removes the unique entry for `k`; on a list with
duplicate keys it removes the first, which never arises for a dict). -/
def eraseKey : Store → ShareKey → Store
| [], _ => []
| (k', v') :: rest, k =>
    if k' = k then rest else (k', v') :: eraseKey rest k

/-- The key list of the store. -/
def keysOf (st : Store) : List ShareKey := st.map Prod.fst

/-- A key string of the snapshot file, classified by the parse in
`load_state`: `good a b` stands for `f"{a}:{b}"`; `bad` for any string
for which `str_key.split(':')` does not yield exactly two
int-parsable parts. -/
inductive KeyStr where
| good (a b : Int)
| bad (tag : Nat)
deriving DecidableEq

/-- The key parse of `load_state`:
`chat_id_str, message_id_str = str_key.split(':')` followed by `int`. -/
def parseKey : KeyStr → Option ShareKey
| KeyStr.good a b => some (a, b)
| KeyStr.bad _ => none

/-- The timestamp conversion of `save_state`: a `datetime` value is
replaced by its `isoformat()` string; anything else is left as is
(the `isinstance(..., datetime)` guard). -/
def serTime : TimeVal → TimeVal
| TimeVal.dt d => TimeVal.str (ISOStr.ofDT d)
| t => t

/-- `save_state`'s per-entry conversion of the value dict. -/
def serEntry (e : Entry) : Entry :=
  { e with start_time := serTime e.start_time,
           last_update := serTime e.last_update }

/-- The `data_to_save` dict built by `save_state`: tuple keys become
`f"{a}:{b}"` strings, datetimes become ISO strings. -/
def saveSerialize (st : Store) : List (KeyStr × Entry) :=
  st.map (fun p => (KeyStr.good p.1.1 p.1.2, serEntry p.2))

/-- The parsed content of a file: either a JSON object mapping key
strings to entry dicts, or bytes `json.load` rejects (including a
truncated write). -/
inductive FileData where
| wellFormed (es : List (KeyStr × Entry))
| garbled
deriving DecidableEq

/-- The two paths `save_state` touches: the canonical snapshot path
and the `.tmp` path. `none` = file absent. -/
structure FS where
  canonical : Option FileData
  temp : Option FileData
deriving DecidableEq

/-- The I/O environment of one `save_state` call: whether the
preparation loop, the temp-file write (`open`/`json.dump`), and
`os.replace` succeed. -/
structure SaveEnv where
  prepOk : Bool
  writeOk : Bool
  replaceOk : Bool
deriving DecidableEq

/-- `save_state(data, filename)`. Preparation failure returns before
any file is touched. A failed temp write leaves the canonical path
untouched and the `finally` block removes the temp file. `os.replace`
is atomic: it either moves the complete temp file over the canonical
path or leaves the canonical path unchanged. -/
def saveState (st : Store) (env : SaveEnv) (fs : FS) : FS :=
  if env.prepOk then
    if env.writeOk then
      if env.replaceOk then
        { canonical := some (FileData.wellFormed (saveSerialize st)),
          temp := none }
      else
        { canonical := fs.canonical, temp := none }
    else
      { canonical := fs.canonical, temp := none }
  else fs

/-- The timestamp conversion of `load_state`: a string value must
parse with `fromisoformat` (else `ValueError` skips the entry) and is
normalized with `astimezone(UTC)`; a non-string value is left as is
(the `isinstance(..., str)` guard). -/
def convTime (off : Int) : TimeVal → Option TimeVal
| TimeVal.str s => (fromiso s).map (fun d => TimeVal.dt (astimezoneUTC off d))
| t => some t

/-- The per-entry body of `load_state`'s try block: parse the key,
convert both timestamps; `none` models the caught
`(ValueError, KeyError, TypeError)` that skips the entry. -/
def processEntry (off : Int) (k : KeyStr) (e : Entry) :
    Option (ShareKey × Entry) :=
  match parseKey k with
  | none => none
  | some kt =>
    match convTime off e.start_time with
    | none => none
    | some st' =>
      match convTime off e.last_update with
      | none => none
      | some lu => some (kt, { e with start_time := st', last_update := lu })

/-- The loop of `load_state`: well-formed entries are inserted into
`state_data` (dict assignment), malformed ones are skipped with a
warning. -/
def loadEntries (off : Int) : List (KeyStr × Entry) → Store → Store
| [], acc => acc
| (k, e) :: rest, acc =>
  match processEntry off k e with
  | some (kt, v) => loadEntries off rest (insertA acc kt v)
  | none => loadEntries off rest acc

/-- `load_state(filename)`: absent file (`FileNotFoundError`) and
unparsable file (`json.JSONDecodeError`) both yield the empty dict;
otherwise the entries are processed one by one. Total: no error
propagates. -/
def loadState (file : Option FileData) (off : Int) : Store :=
  match file with
  | none => []
  | some FileData.garbled => []
  | some (FileData.wellFormed es) => loadEntries off es []

/-- A row handed to `append_row_with_retry` on close (the
human-readable BR-zone strings and `format_duration` rendering are
derived from these fields and carry no further information). -/
structure Row where
  userId : Option Int
  username : Option String
  startUsecs : Int
  endUsecs : Int
  durationSecs : Int
deriving DecidableEq

/-- Externally visible actions of a handler, in program order. -/
inductive Event where
| append (r : Row) (ok : Bool)
| removeKey (k : ShareKey)
| saveSnapshot
| warn
deriving DecidableEq

/-- The `row_data` built by the close branch of
`handle_edited_location`: `d` is the stored `start_time` (a naive one
is first localized to UTC, which keeps the instant), `now` the closing
time; the duration is `max(0, int(duration.total_seconds()))`. -/
def mkRow (e : Entry) (d : PyDateTime) (now : PyDateTime) : Row :=
  { userId := e.user_id, username := e.username,
    startUsecs := d.usecs, endUsecs := now.usecs,
    durationSecs := max 0 (Int.tdiv (now.usecs - d.usecs) 1000000) }

/-- `handle_location` on a message whose location has
`live_period > 0` inside the target group: insert (or overwrite, with
a warning) the session with `start_time = last_update = now`, then
save the snapshot. A non-live location is ignored. -/
def handleLocation (st : Store) (k : ShareKey) (uid : Int)
    (uname : String) (now : PyDateTime) (livePeriod : Nat) :
    Store × List Event :=
  if 0 < livePeriod then
    ((insertA st k
       { user_id := some uid, username := some uname,
         start_time := TimeVal.dt now, last_update := TimeVal.dt now }),
     (if containsKey st k then [Event.warn] else []) ++ [Event.saveSnapshot])
  else (st, [])

/-- `handle_edited_location` for key `k`. `stillLive` is whether the
edited message still carries a live location (heartbeat) or not
(close); `appendOk` is the outcome of `append_row_with_retry`. Result:
(new store, events in order, exception raised?). An unknown key is
ignored. On close, a stored `start_time` that is not a `datetime`
raises (`KeyError` on `share_info['start_time']` or `AttributeError`
on `.tzinfo`) before any append or removal; otherwise the row append
is attempted first, then the entry is removed and the snapshot saved,
regardless of `appendOk`. On heartbeat, `last_update` is set to `now`
and the snapshot saved. -/
def handleEditedLocation (st : Store) (k : ShareKey) (stillLive : Bool)
    (now : PyDateTime) (appendOk : Bool) :
    Store × List Event × Bool :=
  match lookupA st k with
  | none => (st, [], false)
  | some e =>
    if stillLive then
      (insertA st k { e with last_update := TimeVal.dt now },
       [Event.saveSnapshot], false)
    else
      match e.start_time with
      | TimeVal.dt d =>
        (eraseKey st k,
         [Event.append (mkRow e d now) appendOk, Event.removeKey k,
          Event.saveSnapshot],
         false)
      | _ => (st, [], true)

/-- The timestamp the eviction job judges an entry by:
`share_info.get('last_update', share_info.get('start_time'))`. A value
that is not a `datetime` (or is missing entirely) raises
`AttributeError` on `.tzinfo`, which the job catches and logs, leaving
the entry alone; a naive datetime is localized to UTC, keeping its
instant. -/
def effTime (e : Entry) : Option PyDateTime :=
  match e.last_update with
  | TimeVal.dt d => some d
  | TimeVal.absent =>
    match e.start_time with
    | TimeVal.dt d => some d
    | _ => none
  | _ => none

/-- `now_utc - last_update > inactive_limit` (strict), with the
fallbacks above; `limitUs` is the limit in microseconds
(`MAX_INACTIVE_HOURS * 3600 * 10^6`). -/
def isStale (now : PyDateTime) (limitUs : Int) (e : Entry) : Bool :=
  match effTime e with
  | some d => decide (limitUs < now.usecs - d.usecs)
  | none => false

/-- The second loop of `cleanup_inactive_shares`: delete every marked
key that is still present, counting the deletions. -/
def removePass : Store → List ShareKey → Store × Nat
| st, [] => (st, 0)
| st, k :: ks =>
  if containsKey st k then
    ((removePass (eraseKey st k) ks).1, (removePass (eraseKey st k) ks).2 + 1)
  else removePass st ks

/-- `cleanup_inactive_shares`: mark every stale entry, delete the
marked keys, and save the snapshot exactly when something was removed.
Result: (new store, removed count, events). No ledger append appears
anywhere in this job. -/
def cleanupInactiveShares (now : PyDateTime) (limitUs : Int)
    (st : Store) : Store × Nat × List Event :=
  let ks := (st.filter (fun p => isStale now limitUs p.2)).map Prod.fst
  let r := removePass st ks
  (r.1, r.2, if 0 < r.2 then [Event.saveSnapshot] else [])

/-- Outcome of one `worksheet.append_row` call: success, a
`gspread.exceptions.APIError` with an HTTP status, or any other
exception. -/
inductive ApiOutcome where
| success
| apiError (status : Nat)
| exn
deriving DecidableEq

/-- The transient-class statuses of `append_row_with_retry`:
`status_code in [429, 500, 503]`. -/
def isTransientStatus (s : Nat) : Bool :=
  s = 429 || s = 500 || s = 503

/-- An attempt outcome the retry loop treats as retryable. -/
def isTransient : ApiOutcome → Bool
| ApiOutcome.apiError s => isTransientStatus s
| _ => false

/-- An attempt outcome on which the loop returns failure at once:
a non-transient API status or an unexpected exception. -/
def isFatal : ApiOutcome → Bool
| ApiOutcome.apiError s => !isTransientStatus s
| ApiOutcome.exn => true
| ApiOutcome.success => false

/-- The `for attempt in range(max_retries + 1)` loop of
`append_row_with_retry`. `outcome i` is what the append raises on
attempt `i`; `reacq i` is whether `get_worksheet_with_retry` succeeds
when the handle is reacquired after failed attempt `i` (a failed
reacquisition breaks out of the loop and returns failure). Returns
(success?, number of append attempts made). -/
def retryLoop (outcome : Nat → ApiOutcome) (reacq : Nat → Bool)
    (maxR : Nat) : Nat → Nat → Bool × Nat
| i, 0 => (false, i)
| i, r + 1 =>
  match outcome i with
  | ApiOutcome.success => (true, i + 1)
  | ApiOutcome.apiError s =>
    if isTransientStatus s then
      if i < maxR then
        if reacq i then retryLoop outcome reacq maxR (i + 1) r
        else (false, i + 1)
      else (false, i + 1)
    else (false, i + 1)
  | ApiOutcome.exn => (false, i + 1)

/-- `append_row_with_retry(data, max_retries, delay)`: if the initial
`get_worksheet_with_retry` fails, return failure with no append
attempt; otherwise run the bounded retry loop. -/
def appendRowWithRetry (wsInit : Bool) (outcome : Nat → ApiOutcome)
    (reacq : Nat → Bool) (maxR : Nat) : Bool × Nat :=
  if wsInit then retryLoop outcome reacq maxR 0 (maxR + 1)
  else (false, 0)

/-- One `open` event, as delivered to `handle_location`:
key, user id, username, time, live_period. -/
abbrev OpenEvt := ShareKey × Int × String × PyDateTime × Nat

/-- A sequence of `open` events applied in arrival order. -/
def applyOpens (st : Store) (evs : List OpenEvt) : Store :=
  evs.foldl
    (fun s ev => (handleLocation s ev.1 ev.2.1 ev.2.2.1 ev.2.2.2.1 ev.2.2.2.2).1)
    st

/-- `last_update >= start_time` for one session, when both slots hold
datetimes (the invariant of the spec's data model). -/
def sessionMono (e : Entry) : Bool :=
  match e.start_time, e.last_update with
  | TimeVal.dt a, TimeVal.dt b => decide (a.usecs ≤ b.usecs)
  | _, _ => true

/-- The invariant over the whole store. -/
def storeMono (st : Store) : Bool :=
  st.all (fun p => sessionMono p.2)

/-- Well-formedness of one stored session, as the round-trip claim
requires it: `user_id` and `username` present, both timestamps
timezone-aware UTC datetimes. -/
def entryWF (e : Entry) : Bool :=
  e.user_id.isSome && e.username.isSome &&
  (match e.start_time with
   | TimeVal.dt d => decide (d.tz = some 0)
   | _ => false) &&
  (match e.last_update with
   | TimeVal.dt d => decide (d.tz = some 0)
   | _ => false)

/-- `True` iff the event is a ledger append. -/
def isAppendEvent : Event → Bool
| Event.append _ _ => true
| _ => false

/-- `last_update` holds a `datetime` object. -/
def hasDtLast (e : Entry) : Bool :=
  match e.last_update with
  | TimeVal.dt _ => true
  | _ => false

/-- Staleness as the spec words it: `now - last_update > threshold`,
judged on the `last_update` attribute itself. -/
def lastUpdateStale (now : PyDateTime) (limitUs : Int) (e : Entry) : Bool :=
  match e.last_update with
  | TimeVal.dt d => decide (limitUs < now.usecs - d.usecs)
  | _ => false

/-- Inserting a list of entries into a dict one by one (the shape of
`load_state`'s accumulation). -/
def foldInsert : Store → List (ShareKey × Entry) → Store
| acc, [] => acc
| acc, (k, v) :: rest => foldInsert (insertA acc k v) rest

/-- A concrete well-formed store with two sessions. -/
def c1store : Store :=
  [((100, 5), { user_id := some 42, username := some "alice",
                start_time := TimeVal.dt ⟨1000000, some 0⟩,
                last_update := TimeVal.dt ⟨2000000, some 0⟩ }),
   ((100, 6), { user_id := some 43, username := some "bob",
                start_time := TimeVal.dt ⟨3000000, some 0⟩,
                last_update := TimeVal.dt ⟨4000000, some 0⟩ })]

/-- A concrete snapshot file with one good entry, one entry under a
bad key string, and one entry with an unparsable timestamp. -/
def c5file : List (KeyStr × Entry) :=
  [(KeyStr.good 1 2,
    { user_id := some 7, username := some "a",
      start_time := TimeVal.str (ISOStr.ofDT ⟨5, some 0⟩),
      last_update := TimeVal.str (ISOStr.ofDT ⟨6, some 0⟩) }),
   (KeyStr.bad 0,
    { user_id := some 8, username := some "b",
      start_time := TimeVal.str (ISOStr.ofDT ⟨5, some 0⟩),
      last_update := TimeVal.str (ISOStr.ofDT ⟨6, some 0⟩) }),
   (KeyStr.good 3 4,
    { user_id := some 9, username := some "c",
      start_time := TimeVal.str (ISOStr.invalid 0),
      last_update := TimeVal.absent })]

/-- The store after an open at instant 100000000 for key (1, 2). -/
def c8store0 : Store :=
  (handleLocation [] (1, 2) 7 "u" ⟨100000000, some 0⟩ 600).1

/-- The same store after a heartbeat carrying the earlier instant
50000000 (a backwards clock step between the two events). -/
def c8store1 : Store :=
  (handleEditedLocation c8store0 (1, 2) true ⟨50000000, some 0⟩ true).1

/-- A single well-formed session entry for concrete instantiations. -/
def wEntry : Entry :=
  { user_id := some 7, username := some "u",
    start_time := TimeVal.dt ⟨10, some 0⟩,
    last_update := TimeVal.dt ⟨20, some 0⟩ }

/-- A one-session store for concrete instantiations. -/
def wStore : Store := [((1, 2), wEntry)]

/-- A store with one stale and one fresh session (relative to
`now = 10000000`, `limit = 4000000`). -/
def wStaleStore : Store :=
  [((1, 2), { user_id := some 7, username := some "u",
              start_time := TimeVal.dt ⟨0, some 0⟩,
              last_update := TimeVal.dt ⟨0, some 0⟩ }),
   ((3, 4), { user_id := some 8, username := some "v",
              start_time := TimeVal.dt ⟨5000000, some 0⟩,
              last_update := TimeVal.dt ⟨9000000, some 0⟩ })]

/-- A store whose only session lacks the `last_update` key. -/
def wNoLastStore : Store :=
  [((1, 2), { user_id := some 7, username := some "u",
              start_time := TimeVal.dt ⟨0, some 0⟩,
              last_update := TimeVal.absent })]

/-! Dictionary lemmas for the association-list model. -/

theorem lookupA_insertA_self (st : Store) (k : ShareKey) (v : Entry) :
    lookupA (insertA st k v) k = some v := by
  induction st with
  | nil => simp [insertA, lookupA]
  | cons p rest ih =>
    obtain ⟨k', v'⟩ := p
    by_cases h : k' = k
    · simp [insertA, h, lookupA]
    · simp [insertA, h, lookupA, ih]

theorem lookupA_insertA_ne (st : Store) (k : ShareKey) (v : Entry)
    (k' : ShareKey) (h : k' ≠ k) :
    lookupA (insertA st k v) k' = lookupA st k' := by
  have hk : ¬ k = k' := fun hh => h hh.symm
  induction st with
  | nil => simp [insertA, lookupA, hk]
  | cons p rest ih =>
    obtain ⟨a, b⟩ := p
    by_cases ha : a = k
    · subst ha
      simp [insertA, lookupA, hk]
    · simp [insertA, ha, lookupA, ih]

theorem mem_keysOf_insertA (st : Store) (k : ShareKey) (v : Entry)
    (x : ShareKey) :
    x ∈ keysOf (insertA st k v) ↔ x = k ∨ x ∈ keysOf st := by
  induction st with
  | nil => simp [insertA, keysOf]
  | cons p rest ih =>
    obtain ⟨a, b⟩ := p
    by_cases ha : a = k
    · subst ha
      simp [insertA, keysOf]
    · simp [insertA, ha, keysOf] at ih ⊢
      tauto

theorem keysOf_insertA_nodup (st : Store) (k : ShareKey) (v : Entry)
    (h : (keysOf st).Nodup) : (keysOf (insertA st k v)).Nodup := by
  induction st with
  | nil => simp [insertA, keysOf]
  | cons p rest ih =>
    obtain ⟨a, b⟩ := p
    simp only [keysOf, List.map_cons, List.nodup_cons] at h
    obtain ⟨hna, hrest⟩ := h
    by_cases ha : a = k
    · subst ha
      have hrw : insertA ((a, b) :: rest) a v = (a, v) :: rest := by
        simp [insertA]
      rw [hrw]
      simp only [keysOf, List.map_cons, List.nodup_cons]
      exact ⟨hna, hrest⟩
    · have hrw : insertA ((a, b) :: rest) k v = (a, b) :: insertA rest k v := by
        simp [insertA, ha]
      rw [hrw]
      simp only [keysOf, List.map_cons, List.nodup_cons]
      refine ⟨?_, ih hrest⟩
      intro hmem
      rcases (mem_keysOf_insertA rest k v a).mp hmem with h1 | h2
      · exact ha h1
      · exact hna h2

theorem insertA_not_contains (st : Store) (k : ShareKey) (v : Entry)
    (h : containsKey st k = false) : insertA st k v = st ++ [(k, v)] := by
  induction st with
  | nil => rfl
  | cons p rest ih =>
    obtain ⟨a, b⟩ := p
    by_cases ha : a = k
    · simp [containsKey, lookupA, ha] at h
    · simp only [containsKey, lookupA, ha, if_false] at h
      simp [insertA, ha, ih h]

theorem containsKey_append (a b : Store) (k : ShareKey) :
    containsKey (a ++ b) k = (containsKey a k || containsKey b k) := by
  induction a with
  | nil => simp [containsKey, lookupA]
  | cons p rest ih =>
    obtain ⟨x, y⟩ := p
    by_cases hx : x = k
    · simp [containsKey, lookupA, hx]
    · simpa [containsKey, lookupA, hx] using ih

theorem foldInsert_disjoint :
    ∀ (l : List (ShareKey × Entry)) (acc : Store),
    (∀ x ∈ keysOf l, containsKey acc x = false) → (keysOf l).Nodup →
    foldInsert acc l = acc ++ l := by
  intro l
  induction l with
  | nil => intro acc _ _; simp [foldInsert]
  | cons p rest ih =>
    intro acc hdisj hnd
    obtain ⟨k, v⟩ := p
    simp only [keysOf, List.map_cons, List.nodup_cons] at hnd
    obtain ⟨hkn, hrest⟩ := hnd
    have hkeys : keysOf ((k, v) :: rest) = k :: keysOf rest := rfl
    have hk : containsKey acc k = false :=
      hdisj k (by rw [hkeys]; exact List.mem_cons_self k _)
    have hstep : insertA acc k v = acc ++ [(k, v)] :=
      insertA_not_contains acc k v hk
    show foldInsert (insertA acc k v) rest = acc ++ (k, v) :: rest
    rw [hstep]
    have hdisj' : ∀ x ∈ keysOf rest, containsKey (acc ++ [(k, v)]) x = false := by
      intro x hx
      have hxk : x ≠ k := fun hxx => hkn (hxx ▸ hx)
      have h1 : containsKey acc x = false :=
        hdisj x (by rw [hkeys]; exact List.mem_cons_of_mem k hx)
      have hk2 : ¬ k = x := fun hh => hxk hh.symm
      have h2 : containsKey [(k, v)] x = false := by
        simp [containsKey, lookupA, hk2]
      rw [containsKey_append, h1, h2]
      rfl
    rw [ih (acc ++ [(k, v)]) hdisj' hrest]
    simp

theorem foldInsert_nil_nodup (l : List (ShareKey × Entry))
    (h : (keysOf l).Nodup) : foldInsert [] l = l := by
  have := foldInsert_disjoint l [] (fun x _ => rfl) h
  simpa using this

theorem loadEntries_eq (off : Int) :
    ∀ (es : List (KeyStr × Entry)) (acc : Store),
    loadEntries off es acc
      = foldInsert acc (es.filterMap (fun p => processEntry off p.1 p.2)) := by
  intro es
  induction es with
  | nil => intro acc; rfl
  | cons p rest ih =>
    intro acc
    obtain ⟨k, e⟩ := p
    cases hp : processEntry off k e with
    | none =>
      rw [loadEntries, hp]
      show loadEntries off rest acc = _
      rw [ih acc, List.filterMap_cons_none (by simpa using hp)]
    | some kv =>
      obtain ⟨kt, v⟩ := kv
      rw [loadEntries, hp]
      show loadEntries off rest (insertA acc kt v) = _
      rw [ih (insertA acc kt v), List.filterMap_cons_some (by simpa using hp)]
      rfl

theorem eraseKey_sublist (st : Store) (k : ShareKey) :
    List.Sublist (eraseKey st k) st := by
  induction st with
  | nil => exact List.Sublist.refl _
  | cons p rest ih =>
    obtain ⟨a, b⟩ := p
    by_cases ha : a = k
    · simp only [eraseKey, ha, if_pos]
      exact List.sublist_cons_self _ _
    · simp only [eraseKey, ha, if_neg, ite_false]
      exact List.Sublist.cons₂ _ ih

theorem lookupA_eraseKey_ne (st : Store) (k k' : ShareKey) (h : k' ≠ k) :
    lookupA (eraseKey st k) k' = lookupA st k' := by
  induction st with
  | nil => rfl
  | cons p rest ih =>
    obtain ⟨a, b⟩ := p
    by_cases ha : a = k
    · subst ha
      have hk : ¬ a = k' := fun hh => h hh.symm
      simp [eraseKey, lookupA, hk]
    · simp [eraseKey, ha, lookupA, ih]

theorem filter_ne_eq_self (st : Store) (k : ShareKey)
    (h : k ∉ keysOf st) :
    st.filter (fun p => decide (p.1 ≠ k)) = st := by
  refine List.filter_eq_self.mpr ?_
  intro p hp
  have : p.1 ∈ keysOf st := List.mem_map_of_mem Prod.fst hp
  have hne : p.1 ≠ k := fun hh => h (hh ▸ this)
  simpa using hne

theorem eraseKey_eq_filter (st : Store) (k : ShareKey)
    (h : (keysOf st).Nodup) :
    eraseKey st k = st.filter (fun p => decide (p.1 ≠ k)) := by
  induction st with
  | nil => rfl
  | cons p rest ih =>
    obtain ⟨a, b⟩ := p
    simp only [keysOf, List.map_cons, List.nodup_cons] at h
    obtain ⟨hna, hrest⟩ := h
    by_cases ha : a = k
    · subst ha
      simp only [eraseKey, if_pos rfl, List.filter_cons]
      have : decide ((a, b).1 ≠ a) = false := by simp
      rw [this]
      simp only [Bool.false_eq_true, if_false, ite_false]
      exact (filter_ne_eq_self rest a hna).symm
    · simp only [eraseKey, ha, ite_false, List.filter_cons]
      have : decide ((a, b).1 ≠ k) = true := by simpa using ha
      rw [this]
      simp only [if_true, ite_true]
      rw [ih hrest]

theorem mem_of_lookupA {st : Store} {k : ShareKey} {e : Entry}
    (h : lookupA st k = some e) : (k, e) ∈ st := by
  induction st with
  | nil => simp [lookupA] at h
  | cons p rest ih =>
    obtain ⟨a, b⟩ := p
    by_cases ha : a = k
    · subst ha
      have hbe : b = e := by
        simp [lookupA] at h
        exact h
      subst hbe
      exact List.mem_cons_self _ _
    · simp only [lookupA, ha, ite_false] at h
      exact List.mem_cons_of_mem _ (ih h)

theorem lookupA_eq_of_mem {st : Store} {k : ShareKey} {e : Entry}
    (h : (keysOf st).Nodup) (hm : (k, e) ∈ st) :
    lookupA st k = some e := by
  induction st with
  | nil => simp at hm
  | cons p rest ih =>
    obtain ⟨a, b⟩ := p
    simp only [keysOf, List.map_cons, List.nodup_cons] at h
    obtain ⟨hna, hrest⟩ := h
    rcases List.mem_cons.mp hm with hhead | htail
    · have h1 : k = a := congrArg Prod.fst hhead
      have h2 : e = b := congrArg Prod.snd hhead
      subst h1
      subst h2
      simp [lookupA]
    · by_cases ha : a = k
      · subst ha
        exact absurd (List.mem_map_of_mem Prod.fst htail) hna
      · simp only [lookupA, ha, ite_false]
        exact ih hrest htail

theorem containsKey_iff {st : Store} {k : ShareKey} :
    containsKey st k = true ↔ ∃ e, (k, e) ∈ st := by
  constructor
  · intro h
    obtain ⟨e, he⟩ := Option.isSome_iff_exists.mp h
    exact ⟨e, mem_of_lookupA he⟩
  · intro ⟨e, he⟩
    induction st with
    | nil => simp at he
    | cons p rest ih =>
      obtain ⟨a, b⟩ := p
      by_cases ha : a = k
      · simp [containsKey, lookupA, ha]
      · rcases List.mem_cons.mp he with hhead | htail
        · exact absurd (congrArg Prod.fst hhead).symm ha
        · simpa [containsKey, lookupA, ha] using ih htail

theorem eq_of_mem_keys_nodup {st : Store} (h : (keysOf st).Nodup)
    {p q : ShareKey × Entry} (hp : p ∈ st) (hq : q ∈ st)
    (hf : p.1 = q.1) : p = q := by
  induction st with
  | nil => simp at hp
  | cons a rest ih =>
    simp only [keysOf, List.map_cons, List.nodup_cons] at h
    obtain ⟨hna, hrest⟩ := h
    rcases List.mem_cons.mp hp with hp1 | hp2 <;>
      rcases List.mem_cons.mp hq with hq1 | hq2
    · exact hp1.trans hq1.symm
    · subst hp1
      exact absurd (hf ▸ List.mem_map_of_mem Prod.fst hq2) hna
    · subst hq1
      exact absurd (hf ▸ List.mem_map_of_mem Prod.fst hp2) hna
    · exact ih hrest hp2 hq2

theorem containsKey_filter {st : Store} {k : ShareKey} {e : Entry}
    (h : (keysOf st).Nodup) (hm : (k, e) ∈ st)
    (q : ShareKey × Entry → Bool) :
    containsKey (st.filter q) k = q (k, e) := by
  cases hq : q (k, e) with
  | true =>
    exact containsKey_iff.mpr ⟨e, List.mem_filter.mpr ⟨hm, hq⟩⟩
  | false =>
    cases hc : containsKey (st.filter q) k with
    | false => rfl
    | true =>
      exfalso
      obtain ⟨e', he'⟩ := containsKey_iff.mp hc
      obtain ⟨hmem', hq'⟩ := List.mem_filter.mp he'
      have : (k, e') = (k, e) := eq_of_mem_keys_nodup h hmem' hm rfl
      rw [this, hq] at hq'
      exact Bool.false_ne_true hq'

theorem containsKey_eraseKey_self (st : Store) (k : ShareKey)
    (h : (keysOf st).Nodup) :
    containsKey (eraseKey st k) k = false := by
  rw [eraseKey_eq_filter st k h]
  cases hc : containsKey (st.filter fun p => decide (p.1 ≠ k)) k with
  | false => rfl
  | true =>
    exfalso
    obtain ⟨e', he'⟩ := containsKey_iff.mp hc
    have := (List.mem_filter.mp he').2
    simp at this

theorem keysOf_eraseKey_nodup (st : Store) (k : ShareKey)
    (h : (keysOf st).Nodup) : (keysOf (eraseKey st k)).Nodup :=
  List.Nodup.sublist (List.Sublist.map Prod.fst (eraseKey_sublist st k)) h

theorem removePass_spec :
    ∀ (ks : List ShareKey) (st : Store),
    (keysOf st).Nodup → ks.Nodup →
    (∀ x ∈ ks, containsKey st x = true) →
    removePass st ks = (st.filter (fun p => decide (p.1 ∉ ks)), ks.length) := by
  intro ks
  induction ks with
  | nil =>
    intro st _ _ _
    simp only [removePass, List.length_nil]
    rw [List.filter_eq_self.mpr]
    intro p _
    simp
  | cons k ks ih =>
    intro st hst hnd hcont
    simp only [List.nodup_cons] at hnd
    obtain ⟨hkn, hks⟩ := hnd
    have hck : containsKey st k = true := hcont k (List.mem_cons_self k ks)
    have hstep :
        removePass st (k :: ks)
          = ((removePass (eraseKey st k) ks).1,
             (removePass (eraseKey st k) ks).2 + 1) := by
      simp [removePass, hck]
    rw [hstep]
    have hst' : (keysOf (eraseKey st k)).Nodup := keysOf_eraseKey_nodup st k hst
    have hcont' : ∀ x ∈ ks, containsKey (eraseKey st k) x = true := by
      intro x hx
      have hxk : x ≠ k := fun hh => hkn (hh ▸ hx)
      unfold containsKey
      rw [lookupA_eraseKey_ne st k x hxk]
      exact hcont x (List.mem_cons_of_mem k hx)
    rw [ih (eraseKey st k) hst' hks hcont']
    rw [eraseKey_eq_filter st k hst]
    rw [List.filter_filter]
    refine Prod.ext ?_ (by simp [List.length_cons])
    show List.filter _ st = List.filter _ st
    refine List.filter_congr ?_
    intro p _
    by_cases h1 : p.1 = k
    · simp [h1]
    · by_cases h2 : p.1 ∈ ks <;> simp [h1, h2]

theorem isStale_eq_lastUpdateStale (now : PyDateTime) (limitUs : Int)
    (e : Entry) (h : hasDtLast e = true) :
    isStale now limitUs e = lastUpdateStale now limitUs e := by
  cases hl : e.last_update with
  | dt d => simp [isStale, effTime, lastUpdateStale, hl]
  | absent => simp [hasDtLast, hl] at h
  | str s => simp [hasDtLast, hl] at h
  | other => simp [hasDtLast, hl] at h

theorem cleanup_spec (now : PyDateTime) (limitUs : Int) (st : Store)
    (h : (keysOf st).Nodup) :
    cleanupInactiveShares now limitUs st
      = (st.filter (fun p => !isStale now limitUs p.2),
         (st.filter (fun p => isStale now limitUs p.2)).length,
         if 0 < (st.filter (fun p => isStale now limitUs p.2)).length
         then [Event.saveSnapshot] else []) := by
  have hsub : List.Sublist (st.filter (fun p => isStale now limitUs p.2)) st :=
    List.filter_sublist st
  have hksnd :
      ((st.filter (fun p => isStale now limitUs p.2)).map Prod.fst).Nodup :=
    List.Nodup.sublist (List.Sublist.map Prod.fst hsub) h
  have hcont :
      ∀ x ∈ (st.filter (fun p => isStale now limitUs p.2)).map Prod.fst,
        containsKey st x = true := by
    intro x hx
    obtain ⟨p, hp, hpx⟩ := List.mem_map.mp hx
    have hpst : p ∈ st := List.mem_of_mem_filter hp
    exact containsKey_iff.mpr ⟨p.2, by rw [← hpx]; exact hpst⟩
  have hrp := removePass_spec
    ((st.filter (fun p => isStale now limitUs p.2)).map Prod.fst)
    st h hksnd hcont
  have hfeq :
      st.filter
        (fun p => decide
          (p.1 ∉ (st.filter (fun p => isStale now limitUs p.2)).map Prod.fst))
        = st.filter (fun p => !isStale now limitUs p.2) := by
    refine List.filter_congr ?_
    intro p hp
    have hiff :
        p.1 ∈ (st.filter (fun p => isStale now limitUs p.2)).map Prod.fst
          ↔ isStale now limitUs p.2 = true := by
      constructor
      · intro hmem
        obtain ⟨q, hq, hqx⟩ := List.mem_map.mp hmem
        obtain ⟨hqst, hqs⟩ := List.mem_filter.mp hq
        have : q = p := eq_of_mem_keys_nodup h hqst hp hqx
        rwa [this] at hqs
      · intro hs
        exact List.mem_map_of_mem Prod.fst (List.mem_filter.mpr ⟨hp, hs⟩)
    cases hs : isStale now limitUs p.2 <;> simp [hiff, hs]
  show ((removePass st
          ((st.filter (fun p => isStale now limitUs p.2)).map Prod.fst)).1,
        (removePass st
          ((st.filter (fun p => isStale now limitUs p.2)).map Prod.fst)).2,
        if 0 < (removePass st
          ((st.filter (fun p => isStale now limitUs p.2)).map Prod.fst)).2
        then [Event.saveSnapshot] else []) = _
  rw [hrp]
  simp only [hfeq]
  simp [List.length_map]

theorem processEntry_serEntry (off : Int) (a b : Int) (e : Entry)
    (h : entryWF e = true) :
    processEntry off (KeyStr.good a b) (serEntry e) = some ((a, b), e) := by
  simp only [entryWF, Bool.and_eq_true] at h
  obtain ⟨⟨⟨hu, hn⟩, hs⟩, hl⟩ := h
  cases hst : e.start_time with
  | dt d =>
    cases hlu : e.last_update with
    | dt d' =>
      rw [hst] at hs
      rw [hlu] at hl
      simp only [decide_eq_true_eq] at hs hl
      obtain ⟨du, dtz⟩ := d
      obtain ⟨du', dtz'⟩ := d'
      simp only [PyDateTime.mk.injEq] at hs hl
      cases hs
      cases hl
      have hser : serEntry e =
          { e with start_time := TimeVal.str (ISOStr.ofDT ⟨du, some 0⟩),
                   last_update := TimeVal.str (ISOStr.ofDT ⟨du', some 0⟩) } := by
        simp [serEntry, serTime, hst, hlu]
      rw [hser]
      show some ((a, b),
        { e with
          start_time := TimeVal.dt (astimezoneUTC off ⟨du, some 0⟩),
          last_update := TimeVal.dt (astimezoneUTC off ⟨du', some 0⟩) })
        = some ((a, b), e)
      rw [show astimezoneUTC off ⟨du, some 0⟩ = ⟨du, some 0⟩ from rfl,
          show astimezoneUTC off ⟨du', some 0⟩ = ⟨du', some 0⟩ from rfl,
          ← hst, ← hlu]
    | absent => rw [hlu] at hl; simp at hl
    | str s => rw [hlu] at hl; simp at hl
    | other => rw [hlu] at hl; simp at hl
  | absent => rw [hst] at hs; simp at hs
  | str s => rw [hst] at hs; simp at hs
  | other => rw [hst] at hs; simp at hs

theorem filterMap_processEntry_saveSerialize (off : Int) :
    ∀ (st : Store), (∀ p ∈ st, entryWF p.2 = true) →
    (saveSerialize st).filterMap (fun p => processEntry off p.1 p.2) = st := by
  intro st
  induction st with
  | nil => intro _; rfl
  | cons p rest ih =>
    intro h
    obtain ⟨k, e⟩ := p
    have he : entryWF e = true := h (k, e) (List.mem_cons_self _ _)
    have hrest : ∀ q ∈ rest, entryWF q.2 = true :=
      fun q hq => h q (List.mem_cons_of_mem _ hq)
    show List.filterMap _ ((KeyStr.good k.1 k.2, serEntry e) :: saveSerialize rest) = _
    rw [List.filterMap_cons_some
      (by simpa using processEntry_serEntry off k.1 k.2 e he)]
    rw [ih hrest]

theorem retryLoop_all_transient (outcome : Nat → ApiOutcome)
    (reacq : Nat → Bool) (maxR : Nat)
    (ht : ∀ j, isTransient (outcome j) = true)
    (hr : ∀ j, reacq j = true) :
    ∀ (r i : Nat), i + r = maxR →
    retryLoop outcome reacq maxR i (r + 1) = (false, maxR + 1) := by
  intro r
  induction r with
  | zero =>
    intro i hi
    simp only [Nat.add_zero] at hi
    subst hi
    have := ht i
    cases ho : outcome i with
    | success => rw [ho] at this; simp [isTransient] at this
    | exn => rw [ho] at this; simp [isTransient] at this
    | apiError s =>
      rw [ho] at this
      simp only [isTransient] at this
      show (match outcome i with
        | ApiOutcome.success => (true, i + 1)
        | ApiOutcome.apiError s =>
          if isTransientStatus s then
            if i < i then
              if reacq i then retryLoop outcome reacq i (i + 1) 0
              else (false, i + 1)
            else (false, i + 1)
          else (false, i + 1)
        | ApiOutcome.exn => (false, i + 1)) = (false, i + 1)
      rw [ho]
      simp [this]
  | succ r ihr =>
    intro i hi
    have hlt : i < maxR := by omega
    have := ht i
    cases ho : outcome i with
    | success => rw [ho] at this; simp [isTransient] at this
    | exn => rw [ho] at this; simp [isTransient] at this
    | apiError s =>
      rw [ho] at this
      simp only [isTransient] at this
      show (match outcome i with
        | ApiOutcome.success => (true, i + 1)
        | ApiOutcome.apiError s =>
          if isTransientStatus s then
            if i < maxR then
              if reacq i then retryLoop outcome reacq maxR (i + 1) (r + 1)
              else (false, i + 1)
            else (false, i + 1)
          else (false, i + 1)
        | ApiOutcome.exn => (false, i + 1)) = (false, maxR + 1)
      rw [ho]
      simp only [this, if_true, hlt, hr i]
      exact ihr (i + 1) (by omega)

theorem retryLoop_fatal (outcome : Nat → ApiOutcome)
    (reacq : Nat → Bool) (maxR : Nat) :
    ∀ (d i : Nat), i + d ≤ maxR →
    (∀ j, i ≤ j → j < i + d → isTransient (outcome j) = true ∧ reacq j = true) →
    isFatal (outcome (i + d)) = true →
    retryLoop outcome reacq maxR i (maxR + 1 - i) = (false, i + d + 1) := by
  intro d
  induction d with
  | zero =>
    intro i hle _ hf
    simp only [Nat.add_zero] at hf ⊢
    obtain ⟨r, hrr⟩ : ∃ r, maxR + 1 - i = r + 1 := ⟨maxR - i, by omega⟩
    rw [hrr]
    cases ho : outcome i with
    | success => rw [ho] at hf; simp [isFatal] at hf
    | exn =>
      show (match outcome i with
        | ApiOutcome.success => (true, i + 1)
        | ApiOutcome.apiError s =>
          if isTransientStatus s then
            if i < maxR then
              if reacq i then retryLoop outcome reacq maxR (i + 1) r
              else (false, i + 1)
            else (false, i + 1)
          else (false, i + 1)
        | ApiOutcome.exn => (false, i + 1)) = (false, i + 1)
      rw [ho]
    | apiError s =>
      rw [ho] at hf
      simp only [isFatal, Bool.not_eq_true'] at hf
      show (match outcome i with
        | ApiOutcome.success => (true, i + 1)
        | ApiOutcome.apiError s =>
          if isTransientStatus s then
            if i < maxR then
              if reacq i then retryLoop outcome reacq maxR (i + 1) r
              else (false, i + 1)
            else (false, i + 1)
          else (false, i + 1)
        | ApiOutcome.exn => (false, i + 1)) = (false, i + 1)
      rw [ho]
      simp [hf]
  | succ d ihd =>
    intro i hle hprev hf
    have hlt : i < maxR := by omega
    obtain ⟨ht, hreq⟩ := hprev i (Nat.le_refl i) (by omega)
    obtain ⟨r, hrr⟩ : ∃ r, maxR + 1 - i = r + 1 := ⟨maxR - i, by omega⟩
    rw [hrr]
    cases ho : outcome i with
    | success => rw [ho] at ht; simp [isTransient] at ht
    | exn => rw [ho] at ht; simp [isTransient] at ht
    | apiError s =>
      rw [ho] at ht
      simp only [isTransient] at ht
      show (match outcome i with
        | ApiOutcome.success => (true, i + 1)
        | ApiOutcome.apiError s =>
          if isTransientStatus s then
            if i < maxR then
              if reacq i then retryLoop outcome reacq maxR (i + 1) r
              else (false, i + 1)
            else (false, i + 1)
          else (false, i + 1)
        | ApiOutcome.exn => (false, i + 1)) = (false, i + (d + 1) + 1)
      rw [ho]
      simp only [ht, if_true, hlt, hreq]
      have hr' : r = maxR + 1 - (i + 1) := by omega
      rw [hr']
      have := ihd (i + 1) (by omega)
        (fun j hj1 hj2 => hprev j (by omega) (by omega))
        (by rw [show i + 1 + d = i + (d + 1) from by omega]; exact hf)
      rw [this]
      refine congrArg _ ?_
      omega

theorem handleLocation_nodup (st : Store) (k : ShareKey) (uid : Int)
    (uname : String) (now : PyDateTime) (live : Nat)
    (h : (keysOf st).Nodup) :
    (keysOf (handleLocation st k uid uname now live).1).Nodup := by
  unfold handleLocation
  by_cases hl : 0 < live
  · simp only [hl, if_true]
    exact keysOf_insertA_nodup st k _ h
  · simp only [hl, if_false, ite_false]
    exact h

theorem applyOpens_nodup :
    ∀ (evs : List OpenEvt) (st : Store), (keysOf st).Nodup →
    (keysOf (applyOpens st evs)).Nodup := by
  intro evs
  induction evs with
  | nil => intro st h; exact h
  | cons ev rest ih =>
    intro st h
    show (keysOf (applyOpens
      (handleLocation st ev.1 ev.2.1 ev.2.2.1 ev.2.2.2.1 ev.2.2.2.2).1 rest)).Nodup
    exact ih _ (handleLocation_nodup st ev.1 ev.2.1 ev.2.2.1 ev.2.2.2.1 ev.2.2.2.2 h)

theorem storeMono_insertA (st : Store) (k : ShareKey) (v : Entry)
    (h : storeMono st = true) (hv : sessionMono v = true) :
    storeMono (insertA st k v) = true := by
  induction st with
  | nil => simp [insertA, storeMono, hv]
  | cons p rest ih =>
    obtain ⟨a, b⟩ := p
    simp only [storeMono, List.all_cons, Bool.and_eq_true] at h
    obtain ⟨hb, hrest⟩ := h
    by_cases ha : a = k
    · have hrw : insertA ((a, b) :: rest) k v = (k, v) :: rest := by
        simp [insertA, ha]
      rw [hrw]
      simp only [storeMono, List.all_cons, Bool.and_eq_true]
      exact ⟨hv, hrest⟩
    · have hrw : insertA ((a, b) :: rest) k v = (a, b) :: insertA rest k v := by
        simp [insertA, ha]
      rw [hrw]
      have h2 := ih hrest
      simp only [storeMono, List.all_cons, Bool.and_eq_true] at h2 ⊢
      exact ⟨hb, h2⟩

theorem cleanup_events_shape (now : PyDateTime) (limitUs : Int) (st : Store) :
    (cleanupInactiveShares now limitUs st).2.2
      = (if 0 < (cleanupInactiveShares now limitUs st).2.1
         then [Event.saveSnapshot] else []) := rfl

/-! The claims. -/

/-- C1: for every store whose sessions are well-formed (tuple key of
two integers, timezone-aware UTC `start_time` and `last_update`,
`user_id` and `username` present) and whose keys are distinct (a
dict), loading the file produced by a successful save restores exactly
the same store: same key set, same attribute values (here even to the
microsecond), timestamps normalized to UTC. -/
theorem c1_save_load_round_trip (st : Store) (fs : FS) (off : Int)
    (h1 : (keysOf st).Nodup) (h2 : ∀ p ∈ st, entryWF p.2 = true) :
    loadState (saveState st ⟨true, true, true⟩ fs).canonical off = st := by
  have hcan : (saveState st ⟨true, true, true⟩ fs).canonical
      = some (FileData.wellFormed (saveSerialize st)) := rfl
  rw [hcan]
  show loadEntries off (saveSerialize st) [] = st
  rw [loadEntries_eq off (saveSerialize st) []]
  rw [filterMap_processEntry_saveSerialize off st h2]
  exact foldInsert_nil_nodup st h1

/-- Witness for C1 on a concrete two-session store. -/
theorem c1_save_load_round_trip_witness :
    loadState (saveState c1store ⟨true, true, true⟩ ⟨none, none⟩).canonical 0
      = c1store :=
  c1_save_load_round_trip c1store ⟨none, none⟩ 0 (by decide) (by decide)

/-- C2: on a close event for a key present in the store (with a
well-formed `start_time`), the handler raises nothing, first attempts
the ledger append and then removes the entry and saves; afterwards the
key is absent from the store whether the append succeeded or
failed (the conclusion holds for both values of `appendOk`). -/
theorem c2_close_removes_key (st : Store) (k : ShareKey) (e : Entry)
    (d : PyDateTime) (now : PyDateTime) (appendOk : Bool)
    (h1 : (keysOf st).Nodup) (hl : lookupA st k = some e)
    (hd : e.start_time = TimeVal.dt d) :
    (handleEditedLocation st k false now appendOk).2.2 = false
    ∧ containsKey (handleEditedLocation st k false now appendOk).1 k = false
    ∧ (handleEditedLocation st k false now appendOk).2.1
        = [Event.append (mkRow e d now) appendOk, Event.removeKey k,
           Event.saveSnapshot] := by
  have hrw : handleEditedLocation st k false now appendOk
      = (eraseKey st k,
         [Event.append (mkRow e d now) appendOk, Event.removeKey k,
          Event.saveSnapshot], false) := by
    unfold handleEditedLocation
    rw [hl]
    simp [hd]
  rw [hrw]
  exact ⟨rfl, containsKey_eraseKey_self st k h1, rfl⟩

/-- Witness for C2: concrete close with a failing append. -/
theorem c2_close_removes_key_witness :
    (handleEditedLocation wStore (1, 2) false ⟨30, some 0⟩ false).2.2 = false
    ∧ containsKey
        (handleEditedLocation wStore (1, 2) false ⟨30, some 0⟩ false).1 (1, 2)
        = false
    ∧ (handleEditedLocation wStore (1, 2) false ⟨30, some 0⟩ false).2.1
        = [Event.append (mkRow wEntry ⟨10, some 0⟩ ⟨30, some 0⟩) false,
           Event.removeKey (1, 2), Event.saveSnapshot] :=
  c2_close_removes_key wStore (1, 2) wEntry ⟨10, some 0⟩ ⟨30, some 0⟩ false
    (by decide) rfl rfl

/-- C3: when every session carries a `last_update` datetime, the sweep
removes exactly the sessions with `now - last_update > threshold`,
leaves the ones within the threshold unchanged (they survive as the
filtered store), and returns the number removed. -/
theorem c3_eviction_correct (now : PyDateTime) (limitUs : Int) (st : Store)
    (h1 : (keysOf st).Nodup) (h2 : ∀ p ∈ st, hasDtLast p.2 = true) :
    (cleanupInactiveShares now limitUs st).1
      = st.filter (fun p => !lastUpdateStale now limitUs p.2)
    ∧ (cleanupInactiveShares now limitUs st).2.1
      = (st.filter (fun p => lastUpdateStale now limitUs p.2)).length := by
  have hcl := cleanup_spec now limitUs st h1
  have hf1 : st.filter (fun p => !isStale now limitUs p.2)
      = st.filter (fun p => !lastUpdateStale now limitUs p.2) :=
    List.filter_congr (fun p hp => by
      rw [isStale_eq_lastUpdateStale now limitUs p.2 (h2 p hp)])
  have hf2 : st.filter (fun p => isStale now limitUs p.2)
      = st.filter (fun p => lastUpdateStale now limitUs p.2) :=
    List.filter_congr (fun p hp =>
      isStale_eq_lastUpdateStale now limitUs p.2 (h2 p hp))
  rw [hcl]
  refine ⟨?_, ?_⟩
  · show st.filter (fun p => !isStale now limitUs p.2) = _
    exact hf1
  · show (st.filter (fun p => isStale now limitUs p.2)).length = _
    rw [hf2]

/-- Witness for C3 on a store with one stale and one fresh session. -/
theorem c3_eviction_correct_witness :
    (cleanupInactiveShares ⟨10000000, some 0⟩ 4000000 wStaleStore).1
      = wStaleStore.filter
          (fun p => !lastUpdateStale ⟨10000000, some 0⟩ 4000000 p.2)
    ∧ (cleanupInactiveShares ⟨10000000, some 0⟩ 4000000 wStaleStore).2.1
      = (wStaleStore.filter
          (fun p => lastUpdateStale ⟨10000000, some 0⟩ 4000000 p.2)).length :=
  c3_eviction_correct ⟨10000000, some 0⟩ 4000000 wStaleStore
    (by decide) (by decide)

/-- C4: with the worksheet handle available, (a) if every attempt
fails with a transient-class status (429, 500 or 503) and every
reacquisition succeeds, the append is attempted exactly
`max_retries + 1` times and fails; (b) a non-transient failure (other
API status, or an unexpected exception) at attempt `d` returns failure
immediately after `d + 1` attempts. -/
theorem c4_retry_bound (outcome : Nat → ApiOutcome) (reacq : Nat → Bool)
    (maxR : Nat) :
    ((∀ j, isTransient (outcome j) = true) → (∀ j, reacq j = true) →
      appendRowWithRetry true outcome reacq maxR = (false, maxR + 1))
    ∧ (∀ d, d ≤ maxR →
        (∀ j, j < d → isTransient (outcome j) = true ∧ reacq j = true) →
        isFatal (outcome d) = true →
        appendRowWithRetry true outcome reacq maxR = (false, d + 1)) := by
  constructor
  · intro ht hr
    show retryLoop outcome reacq maxR 0 (maxR + 1) = (false, maxR + 1)
    exact retryLoop_all_transient outcome reacq maxR ht hr maxR 0 (by omega)
  · intro d hd hprev hf
    show retryLoop outcome reacq maxR 0 (maxR + 1) = (false, d + 1)
    have := retryLoop_fatal outcome reacq maxR d 0 (by omega)
      (fun j _ hj2 => hprev j (by omega)) (by simpa using hf)
    simpa using this

/-- Witness for C4: three transient attempts with `max_retries = 2`,
and an immediate stop on a 404 at the second attempt. -/
theorem c4_retry_bound_witness :
    appendRowWithRetry true (fun _ => ApiOutcome.apiError 429)
      (fun _ => true) 2 = (false, 3)
    ∧ appendRowWithRetry true
        (fun j => if j = 0 then ApiOutcome.apiError 500
                  else ApiOutcome.apiError 404)
        (fun _ => true) 2 = (false, 2) :=
  ⟨(c4_retry_bound (fun _ => ApiOutcome.apiError 429) (fun _ => true) 2).1
      (fun _ => rfl) (fun _ => rfl),
   (c4_retry_bound
      (fun j => if j = 0 then ApiOutcome.apiError 500
                else ApiOutcome.apiError 404) (fun _ => true) 2).2
      1 (by omega)
      (fun j hj => by
        have hj0 : j = 0 := by omega
        subst hj0
        exact ⟨rfl, rfl⟩)
      rfl⟩

/-- C5: `load_state` never propagates an error and has exactly three
outcomes: an absent file yields the empty store, an unparsable file
yields the empty store, and from a parsed file every malformed entry
(bad key format or bad timestamp, i.e. `processEntry` fails) is
skipped while all remaining entries are restored (stated for files
whose restored keys are distinct, as any dict-serialized file is). -/
theorem c5_load_outcomes (off : Int) :
    loadState none off = []
    ∧ loadState (some FileData.garbled) off = []
    ∧ ∀ es : List (KeyStr × Entry),
        ((es.filterMap (fun p => processEntry off p.1 p.2)).map Prod.fst).Nodup →
        loadState (some (FileData.wellFormed es)) off
          = es.filterMap (fun p => processEntry off p.1 p.2) := by
  refine ⟨rfl, rfl, ?_⟩
  intro es hnd
  show loadEntries off es [] = _
  rw [loadEntries_eq off es []]
  exact foldInsert_nil_nodup _ hnd

/-- Witness for C5: a file with one good entry, one bad key and one
bad timestamp restores exactly the good entry. -/
theorem c5_load_outcomes_witness :
    loadState (some (FileData.wellFormed c5file)) 0
      = c5file.filterMap (fun p => processEntry 0 p.1 p.2)
    ∧ loadState none 0 = ([] : Store)
    ∧ loadState (some FileData.garbled) 0 = ([] : Store) :=
  ⟨(c5_load_outcomes 0).2.2 c5file (by decide),
   (c5_load_outcomes 0).1, (c5_load_outcomes 0).2.1⟩

/-- C6: `save_state` writes a temp file and atomically renames it over
the canonical path; the canonical path holds the complete new snapshot
exactly when preparation, write and rename all succeed, and is left
bit-for-bit unchanged on any failure; it never holds a partial
write (it is always either the old content or the complete new
snapshot). -/
theorem c6_save_atomic (st : Store) (env : SaveEnv) (fs : FS) :
    (saveState st env fs).canonical
      = (if env.prepOk && env.writeOk && env.replaceOk
         then some (FileData.wellFormed (saveSerialize st))
         else fs.canonical)
    ∧ ((saveState st env fs).canonical = fs.canonical
       ∨ (saveState st env fs).canonical
          = some (FileData.wellFormed (saveSerialize st))) := by
  obtain ⟨p, w, r⟩ := env
  cases p <;> cases w <;> cases r <;> simp [saveState]

/-- C7: open always succeeds and keeps at most one session per key:
the opened key maps to a fresh session with
`start_time = last_update = now`, every other key is untouched, the
warning is emitted exactly when the key already existed, and any
sequence of opens preserves distinctness of keys. -/
theorem c7_open_overwrites (st : Store) (k : ShareKey) (uid : Int)
    (uname : String) (now : PyDateTime) (live : Nat) (evs : List OpenEvt)
    (h1 : (keysOf st).Nodup) (hlive : 0 < live) :
    lookupA (handleLocation st k uid uname now live).1 k
      = some { user_id := some uid, username := some uname,
               start_time := TimeVal.dt now, last_update := TimeVal.dt now }
    ∧ (∀ k', k' ≠ k →
        lookupA (handleLocation st k uid uname now live).1 k' = lookupA st k')
    ∧ (Event.warn ∈ (handleLocation st k uid uname now live).2
        ↔ containsKey st k = true)
    ∧ (keysOf (applyOpens st evs)).Nodup := by
  have hrw : handleLocation st k uid uname now live
      = (insertA st k { user_id := some uid, username := some uname,
                        start_time := TimeVal.dt now,
                        last_update := TimeVal.dt now },
         (if containsKey st k then [Event.warn] else [])
           ++ [Event.saveSnapshot]) := by
    simp [handleLocation, hlive]
  refine ⟨?_, ?_, ?_, applyOpens_nodup evs st h1⟩
  · rw [hrw]
    exact lookupA_insertA_self st k _
  · intro k' hk'
    rw [hrw]
    exact lookupA_insertA_ne st k _ k' hk'
  · rw [hrw]
    cases hc : containsKey st k <;> simp [hc]

/-- Witness for C7: re-opening the already-present key (1, 2). -/
theorem c7_open_overwrites_witness :
    lookupA (handleLocation wStore (1, 2) 9 "w" ⟨40, some 0⟩ 900).1 (1, 2)
      = some { user_id := some 9, username := some "w",
               start_time := TimeVal.dt ⟨40, some 0⟩,
               last_update := TimeVal.dt ⟨40, some 0⟩ }
    ∧ (∀ k', k' ≠ (1, 2) →
        lookupA (handleLocation wStore (1, 2) 9 "w" ⟨40, some 0⟩ 900).1 k'
          = lookupA wStore k')
    ∧ (Event.warn ∈ (handleLocation wStore (1, 2) 9 "w" ⟨40, some 0⟩ 900).2
        ↔ containsKey wStore (1, 2) = true)
    ∧ (keysOf (applyOpens wStore
        [((1, 2), 9, "w", ⟨41, some 0⟩, 900),
         ((5, 6), 10, "x", ⟨42, some 0⟩, 900)])).Nodup :=
  c7_open_overwrites wStore (1, 2) 9 "w" ⟨40, some 0⟩ 900
    [((1, 2), 9, "w", ⟨41, some 0⟩, 900),
     ((5, 6), 10, "x", ⟨42, some 0⟩, 900)]
    (by decide) (by decide)

/-- C8 (amended): after an open the new session has
`last_update = start_time`; a heartbeat preserves
`last_update >= start_time` across the store whenever its time is not
earlier than the session's start; a heartbeat never raises and stores
the event time without any clamping (so an out-of-order event violates
the invariant, see the counterexample); the only clamp in the code is
the duration at close, which is never negative. -/
theorem c8_monotonicity_amended (st : Store) (k : ShareKey) (uid : Int)
    (uname : String) (now : PyDateTime) (live : Nat) (appendOk : Bool)
    (e : Entry) (d : PyDateTime) :
    (storeMono st = true →
      storeMono (handleLocation st k uid uname now live).1 = true)
    ∧ (storeMono st = true → lookupA st k = some e →
        e.start_time = TimeVal.dt d → d.usecs ≤ now.usecs →
        storeMono (handleEditedLocation st k true now appendOk).1 = true)
    ∧ (lookupA st k = some e →
        (handleEditedLocation st k true now appendOk).1
          = insertA st k { e with last_update := TimeVal.dt now })
    ∧ 0 ≤ (mkRow e d now).durationSecs := by
  have hrw2 : lookupA st k = some e →
      (handleEditedLocation st k true now appendOk).1
        = insertA st k { e with last_update := TimeVal.dt now } := by
    intro hlk
    unfold handleEditedLocation
    rw [hlk]
    simp
  refine ⟨?_, ?_, hrw2, le_max_left 0 _⟩
  · intro hmono
    unfold handleLocation
    by_cases hl : 0 < live
    · simp only [hl, if_true]
      refine storeMono_insertA st k _ hmono ?_
      simp [sessionMono]
    · simp only [hl, if_false, ite_false]
      exact hmono
  · intro hmono hlk hse hd
    rw [hrw2 hlk]
    refine storeMono_insertA st k _ hmono ?_
    simp [sessionMono, hse, hd]

/-- Witness for C8 (amended) at a concrete in-order heartbeat. -/
theorem c8_monotonicity_amended_witness :
    storeMono (handleLocation wStore (5, 6) 9 "w" ⟨40, some 0⟩ 900).1 = true
    ∧ storeMono
        (handleEditedLocation wStore (1, 2) true ⟨25, some 0⟩ true).1 = true
    ∧ (handleEditedLocation wStore (1, 2) true ⟨25, some 0⟩ true).1
        = insertA wStore (1, 2) { wEntry with last_update := TimeVal.dt ⟨25, some 0⟩ }
    ∧ 0 ≤ (mkRow wEntry ⟨10, some 0⟩ ⟨25, some 0⟩).durationSecs :=
  ⟨(c8_monotonicity_amended wStore (5, 6) 9 "w" ⟨40, some 0⟩ 900 true
      wEntry ⟨10, some 0⟩).1 (by decide),
   (c8_monotonicity_amended wStore (1, 2) 9 "w" ⟨25, some 0⟩ 900 true
      wEntry ⟨10, some 0⟩).2.1 (by decide) rfl rfl (by decide),
   (c8_monotonicity_amended wStore (1, 2) 9 "w" ⟨25, some 0⟩ 900 true
      wEntry ⟨10, some 0⟩).2.2.1 rfl,
   (c8_monotonicity_amended wStore (1, 2) 9 "w" ⟨25, some 0⟩ 900 true
      wEntry ⟨10, some 0⟩).2.2.2⟩

/-- C8 counterexample: the claim as stated is false on the code. After
an open at instant 100000000 a heartbeat at the earlier instant
50000000 is stored as-is: `last_update < start_time` holds in the
store and no clamping took place. -/
theorem c8_counterexample :
    storeMono c8store1 = false
    ∧ lookupA c8store1 (1, 2)
        = some { user_id := some 7, username := some "u",
                 start_time := TimeVal.dt ⟨100000000, some 0⟩,
                 last_update := TimeVal.dt ⟨50000000, some 0⟩ } :=
  ⟨rfl, rfl⟩

/-- C9: the eviction sweep never emits a ledger append (its event
trace contains no append for any store, time or threshold), and it
saves the snapshot exactly when at least one session was removed. -/
theorem c9_eviction_no_append (now : PyDateTime) (limitUs : Int)
    (st : Store) :
    ((cleanupInactiveShares now limitUs st).2.2.all
        (fun ev => !isAppendEvent ev)) = true
    ∧ (Event.saveSnapshot ∈ (cleanupInactiveShares now limitUs st).2.2
        ↔ 0 < (cleanupInactiveShares now limitUs st).2.1) := by
  rw [cleanup_events_shape]
  by_cases hc : 0 < (cleanupInactiveShares now limitUs st).2.1
  · simp [hc, isAppendEvent]
  · simp [hc]

/-- Witness for C9 at the concrete stale store. -/
theorem c9_eviction_no_append_witness :
    ((cleanupInactiveShares ⟨10000000, some 0⟩ 4000000 wStaleStore).2.2.all
        (fun ev => !isAppendEvent ev)) = true
    ∧ (Event.saveSnapshot
        ∈ (cleanupInactiveShares ⟨10000000, some 0⟩ 4000000 wStaleStore).2.2
        ↔ 0 < (cleanupInactiveShares ⟨10000000, some 0⟩ 4000000 wStaleStore).2.1) :=
  c9_eviction_no_append ⟨10000000, some 0⟩ 4000000 wStaleStore

/-- C10: a session without a `last_update` key is judged by its
`start_time`: the sweep removes it exactly when
`now - start_time > threshold`. -/
theorem c10_missing_last_update (now : PyDateTime) (limitUs : Int)
    (st : Store) (k : ShareKey) (e : Entry) (d : PyDateTime)
    (h1 : (keysOf st).Nodup) (hm : (k, e) ∈ st)
    (hlu : e.last_update = TimeVal.absent)
    (hst : e.start_time = TimeVal.dt d) :
    containsKey (cleanupInactiveShares now limitUs st).1 k = false
      ↔ limitUs < now.usecs - d.usecs := by
  have hcl := cleanup_spec now limitUs st h1
  have hstale : isStale now limitUs e
      = decide (limitUs < now.usecs - d.usecs) := by
    simp [isStale, effTime, hlu, hst]
  have hck : containsKey (cleanupInactiveShares now limitUs st).1 k
      = !isStale now limitUs e := by
    rw [hcl]
    show containsKey (st.filter (fun p => !isStale now limitUs p.2)) k = _
    have := containsKey_filter h1 hm (fun p => !isStale now limitUs p.2)
    simpa using this
  rw [hck, hstale]
  simp

/-- Witness for C10: the session without `last_update`, 10 seconds
old against a 4-second threshold, is removed. -/
theorem c10_missing_last_update_witness :
    (containsKey (cleanupInactiveShares ⟨10000000, some 0⟩ 4000000
        wNoLastStore).1 (1, 2) = false)
    ∧ ((4000000 : Int) < (10000000 : Int) - 0) :=
  ⟨(c10_missing_last_update ⟨10000000, some 0⟩ 4000000 wNoLastStore (1, 2)
      { user_id := some 7, username := some "u",
        start_time := TimeVal.dt ⟨0, some 0⟩,
        last_update := TimeVal.absent } ⟨0, some 0⟩
      (by decide) (by decide) rfl rfl).mpr (by decide),
   by decide⟩

end GeoBot
